import Mathlib

/-!
Verification of the BinaryVis server-side data pipeline.

The definitions below are a shallow embedding of the backend code
(`UniformSampler::sample`, the LRU `Cache`, `stream_sample`,
`handle_socket`/`handle_message`) and of the client-side `DataManager`
(`frontend/src/core/DataManager.js`).  Bytes are modelled as `Nat`,
byte buffers as `List Nat`, and the random number generator as an
explicit stream `draws : Nat → Nat` of raw draws, with
`rng.gen_range(0..=m)` modelled as `draws i % (m + 1)` (total, and
every value of `[0, m]` is reachable).  Rust `usize` arithmetic on
sizes never overflows for the sizes involved, so `Nat` is used
directly; Rust saturating subtraction coincides with `Nat`
subtraction.  Fallible paths (Rust panics, thrown JS exceptions)
are modelled with `Except`.
-/

/-! ### Sampler: src/sampling/uniform.rs, `UniformSampler::sample` -/

/-- Metadata attached to a sampling result (`SampleMetadata`). -/
structure SampleMetadata where
  original_size : Nat
  sample_size : Nat
  method : String
deriving DecidableEq, Repr

/-- A sampling result (`SampleResult`). -/
structure SampleResult where
  data : List Nat
  metadata : SampleMetadata
deriving DecidableEq, Repr

/-- `let window_size = (target_size as f64).sqrt() as usize;`
For every size exactly representable in an `f64` this is the integer
square root, i.e. `Nat.sqrt`. -/
def window_size (target_size : Nat) : Nat := Nat.sqrt target_size

/-- `let windows_count = target_size / window_size;` (floor division;
the Rust division panics when `window_size = 0`, which `sample` below
makes explicit). -/
def windows_count (target_size : Nat) : Nat :=
  target_size / window_size target_size

/-- `let max_offset = data_size.saturating_sub(windows_count * window_size);` -/
def max_offset (data_size target_size : Nat) : Nat :=
  data_size - windows_count target_size * window_size target_size

/-- `(0..windows_count).map(|_| rng.gen_range(0..=max_offset)).collect()`:
`windows_count` independent draws, each uniform in `[0, max_offset]`. -/
def drawnWindows (data_size target_size : Nat) (draws : Nat → Nat) : List Nat :=
  (List.range (windows_count target_size)).map
    (fun i => draws i % (max_offset data_size target_size + 1))

/-- `windows.sort_unstable();` -/
def sortedWindows (data_size target_size : Nat) (draws : Nat → Nat) : List Nat :=
  (drawnWindows data_size target_size draws).mergeSort (fun a b => a ≤ b)

/-- `for i in 0..windows_count { windows[i] += i * window_size; }` -/
def finalWindows (data_size target_size : Nat) (draws : Nat → Nat) : List Nat :=
  List.zipWith (fun i w => w + i * window_size target_size)
    (List.range (sortedWindows data_size target_size draws).length)
    (sortedWindows data_size target_size draws)

/-- One parallel extraction step:
`let end = (offset + window_size).min(data_size); data[offset..end].to_vec()`. -/
def extractWindow (data : List Nat) (offset ws : Nat) : List Nat :=
  (data.drop offset).take (min (offset + ws) data.length - offset)

namespace UniformSampler

/-- `UniformSampler::sample` (src/sampling/uniform.rs).  The `.error`
case models the Rust panic raised by `target_size / window_size` when
`window_size = 0` (i.e. `target_size = 0` on the sampling path). -/
def sample (data : List Nat) (target_size : Nat) (draws : Nat → Nat) :
    Except String SampleResult :=
  let data_size := data.length
  if data_size ≤ target_size then
    .ok { data := data
          metadata :=
            { original_size := data_size, sample_size := data_size, method := "full" } }
  else if window_size target_size = 0 then
    .error "attempt to divide by zero"
  else
    let chunks := (finalWindows data_size target_size draws).map
      (fun offset => extractWindow data offset (window_size target_size))
    let result := chunks.flatten
    .ok { data := result
          metadata :=
            { original_size := data_size, sample_size := result.length
              method := "uniform" } }

end UniformSampler

/-! ### Sampler arithmetic lemmas -/

lemma window_size_pos {t : Nat} (h : 0 < t) : 0 < window_size t := by
  unfold window_size
  rcases Nat.eq_zero_or_pos (Nat.sqrt t) with h0 | h0
  · rw [Nat.sqrt_eq_zero] at h0; omega
  · exact h0

lemma window_size_le {t : Nat} : window_size t ≤ t := Nat.sqrt_le_self t

lemma windows_count_pos {t : Nat} (h : 0 < t) : 0 < windows_count t := by
  unfold windows_count
  exact Nat.div_pos window_size_le (window_size_pos h)

lemma windows_count_mul_le (t : Nat) : windows_count t * window_size t ≤ t :=
  Nat.div_mul_le_self t (window_size t)

lemma max_offset_add {ds t : Nat} (h : t < ds) :
    max_offset ds t + windows_count t * window_size t = ds := by
  unfold max_offset
  have := windows_count_mul_le t
  omega

lemma length_sortedWindows (ds t : Nat) (draws : Nat → Nat) :
    (sortedWindows ds t draws).length = windows_count t := by
  unfold sortedWindows drawnWindows
  simp

lemma sortedWindows_le (ds t : Nat) (draws : Nat → Nat) :
    ∀ x ∈ sortedWindows ds t draws, x ≤ max_offset ds t := by
  intro x hx
  unfold sortedWindows at hx
  rw [List.mem_mergeSort] at hx
  unfold drawnWindows at hx
  simp only [List.mem_map, List.mem_range] at hx
  obtain ⟨i, -, rfl⟩ := hx
  have := Nat.mod_lt (draws i) (y := max_offset ds t + 1) (by omega)
  omega

lemma sortedWindows_pairwise (ds t : Nat) (draws : Nat → Nat) :
    (sortedWindows ds t draws).Pairwise (fun a b => a ≤ b) := by
  unfold sortedWindows
  have := @List.sorted_mergeSort Nat (fun a b : Nat => decide (a ≤ b))
    (fun a b c => by simp; omega) (fun a b => by simp; omega)
    (drawnWindows ds t draws)
  simpa using this

lemma length_finalWindows (ds t : Nat) (draws : Nat → Nat) :
    (finalWindows ds t draws).length = windows_count t := by
  unfold finalWindows
  simp [length_sortedWindows]

lemma finalWindows_getElem (ds t : Nat) (draws : Nat → Nat) (i : Nat)
    (hi : i < (finalWindows ds t draws).length) :
    (finalWindows ds t draws)[i] =
      (sortedWindows ds t draws).get ⟨i, by
        have := length_finalWindows ds t draws
        have := length_sortedWindows ds t draws
        omega⟩ + i * window_size t := by
  simp only [List.get_eq_getElem]
  unfold finalWindows
  rw [List.getElem_zipWith]
  simp

/-- Core in-bounds fact behind C1: every adjusted window offset plus the
window size stays within the data size. -/
lemma finalWindows_add_ws_le {ds t : Nat} (draws : Nat → Nat)
    (hlt : t < ds) (i : Nat)
    (hi : i < (finalWindows ds t draws).length) :
    (finalWindows ds t draws)[i] + window_size t ≤ ds := by
  have hlen := length_finalWindows ds t draws
  have hlens := length_sortedWindows ds t draws
  rw [finalWindows_getElem ds t draws i hi]
  have hmem : (sortedWindows ds t draws).get ⟨i, by omega⟩ ∈ sortedWindows ds t draws := by
    simp only [List.get_eq_getElem]
    exact List.getElem_mem _
  have hle := sortedWindows_le ds t draws _ hmem
  have hiwc : i < windows_count t := by omega
  have hmul : (i + 1) * window_size t ≤ windows_count t * window_size t :=
    Nat.mul_le_mul_right _ (by omega)
  have hsum := @max_offset_add ds t hlt
  have : (i + 1) * window_size t = i * window_size t + window_size t := by
    rw [Nat.succ_mul]
  omega

/-- Core separation fact behind C4: windows are spread at least a full
window apart. -/
lemma finalWindows_separated {ds t : Nat} (draws : Nat → Nat)
    (i j : Nat) (hij : i < j) (hj : j < (finalWindows ds t draws).length) :
    (finalWindows ds t draws).get ⟨i, by omega⟩ + window_size t ≤
      (finalWindows ds t draws)[j] := by
  simp only [List.get_eq_getElem]
  have hlen := length_finalWindows ds t draws
  have hlens := length_sortedWindows ds t draws
  have hi : i < (finalWindows ds t draws).length := by omega
  rw [finalWindows_getElem ds t draws i hi, finalWindows_getElem ds t draws j hj]
  simp only [List.get_eq_getElem]
  have hsorted := sortedWindows_pairwise ds t draws
  have hmono := List.pairwise_iff_getElem.mp hsorted i j (by omega) (by omega) hij
  have hmul : (i + 1) * window_size t ≤ j * window_size t :=
    Nat.mul_le_mul_right _ (by omega)
  have : (i + 1) * window_size t = i * window_size t + window_size t := by
    rw [Nat.succ_mul]
  omega

lemma extractWindow_length {data : List Nat} {offset ws : Nat}
    (h : offset + ws ≤ data.length) :
    (extractWindow data offset ws).length = ws := by
  unfold extractWindow
  simp only [List.length_take, List.length_drop]
  omega

lemma sum_map_const {α : Type} (L : List α) (g : α → Nat) (c : Nat)
    (h : ∀ x ∈ L, g x = c) : (L.map g).sum = L.length * c := by
  induction L with
  | nil => simp
  | cons a l ih =>
    simp only [List.map_cons, List.sum_cons, List.length_cons]
    rw [h a (by simp), ih (fun x hx => h x (by simp [hx]))]
    ring

/-- On the uniform path the sampler succeeds and its output is the
concatenation of full-length windows. -/
lemma sample_uniform_eq {data : List Nat} {t : Nat} (draws : Nat → Nat)
    (h0 : 0 < t) (hlt : t < data.length) :
    UniformSampler.sample data t draws =
      .ok { data := ((finalWindows data.length t draws).map
              (fun offset => extractWindow data offset (window_size t))).flatten
            metadata :=
              { original_size := data.length
                sample_size := ((finalWindows data.length t draws).map
                  (fun offset => extractWindow data offset (window_size t))).flatten.length
                method := "uniform" } } := by
  unfold UniformSampler.sample
  have hws := window_size_pos h0
  simp only [if_neg (by omega : ¬ data.length ≤ t), if_neg (by omega : ¬ window_size t = 0)]

lemma sample_uniform_data_length {data : List Nat} {t : Nat} (draws : Nat → Nat)
    (hlt : t < data.length) :
    ((finalWindows data.length t draws).map
        (fun offset => extractWindow data offset (window_size t))).flatten.length =
      windows_count t * window_size t := by
  rw [List.length_flatten, List.map_map]
  rw [sum_map_const _ _ (window_size t) ?_]
  · rw [length_finalWindows]
  · intro x hx
    simp only [Function.comp_apply]
    obtain ⟨i, hi, rfl⟩ := List.getElem_of_mem hx
    exact extractWindow_length (finalWindows_add_ws_le draws hlt i hi)

lemma window_size_1024 : window_size 1024 = 32 :=
  (Nat.eq_sqrt.mpr (by norm_num)).symm

lemma windows_count_1024 : windows_count 1024 = 32 := by
  unfold windows_count
  rw [window_size_1024]

lemma window_size_4 : window_size 4 = 2 :=
  (Nat.eq_sqrt.mpr (by norm_num)).symm

/-! ### Claims about the sampler -/

/-- C1: for every `data_size > target_size` with `target_size > 0`, after
drawing `windows_count` offsets uniformly in `[0, max_offset]`, sorting
them and adding `i * window_size` to the i-th, every final window range
`[offset_i, offset_i + window_size)` lies entirely within
`[0, data_size)`; moreover the maximum possible final offset
`max_offset + (windows_count - 1) * window_size` stays within
`data_size - window_size`, so no slice's computed range exceeds
`data_size` and the out-of-range failure branch is unreachable. -/
theorem uniform_windows_within_bounds (data_size target_size : Nat) (draws : Nat → Nat)
    (h0 : 0 < target_size) (hlt : target_size < data_size) :
    (∀ i (hi : i < (finalWindows data_size target_size draws).length),
        (finalWindows data_size target_size draws)[i] + window_size target_size ≤ data_size) ∧
    max_offset data_size target_size +
        (windows_count target_size - 1) * window_size target_size +
        window_size target_size ≤ data_size := by
  constructor
  · intro i hi
    exact finalWindows_add_ws_le draws hlt i hi
  · have hsum := @max_offset_add data_size target_size hlt
    have hwc := windows_count_pos h0
    have hmul : (windows_count target_size - 1) * window_size target_size +
        window_size target_size = windows_count target_size * window_size target_size := by
      rw [← Nat.succ_mul]
      congr 1
      omega
    omega

/-- Witness for C1 at `data_size = 3`, `target_size = 1`, all draws 0. -/
theorem uniform_windows_within_bounds_witness :
    (0 < 1 ∧ 1 < 3) ∧
    ((∀ i (hi : i < (finalWindows 3 1 (fun _ => 0)).length),
        (finalWindows 3 1 (fun _ => 0))[i] + window_size 1 ≤ 3) ∧
      max_offset 3 1 + (windows_count 1 - 1) * window_size 1 + window_size 1 ≤ 3) :=
  ⟨⟨by decide, by decide⟩,
    uniform_windows_within_bounds 3 1 (fun _ => 0) (by decide) (by decide)⟩

/-- C2 (code bug evidence): a sampling request with `target_size = 0` on a
nonempty file passes the only guard in `sample_file` (which checks just
`sample_size > max_sample_size`), and `UniformSampler::sample` then reaches
`windows_count = target_size / window_size` with
`window_size = floor(sqrt(0)) = 0`: a Rust divide-by-zero panic, not an
`InvalidSampleSize` rejection. -/
theorem sample_size_zero_reaches_division :
    (if 128 * 1024 * 1024 < (0 : Nat) then some "InvalidSampleSize" else none) = none ∧
    ∀ draws : Nat → Nat,
      UniformSampler.sample [0] 0 draws = .error "attempt to divide by zero" := by
  refine ⟨rfl, fun draws => rfl⟩

/-- C3: for `target_size > 0` and `data_size > target_size` the sampler
succeeds with output length `windows_count * window_size ≤ target_size`;
for `data_size = 1048576`, `target_size = 1024` this gives
`window_size = 32`, `windows_count = 32` and exactly 1024 output bytes. -/
theorem uniform_sample_output_length (data : List Nat) (target_size : Nat) (draws : Nat → Nat)
    (h0 : 0 < target_size) (hlt : target_size < data.length) :
    ∃ r, UniformSampler.sample data target_size draws = .ok r ∧
      r.data.length = windows_count target_size * window_size target_size ∧
      r.data.length ≤ target_size ∧
      (data.length = 1048576 → target_size = 1024 →
        window_size target_size = 32 ∧ windows_count target_size = 32 ∧
          r.data.length = 1024) := by
  refine ⟨_, sample_uniform_eq draws h0 hlt, ?_, ?_, ?_⟩
  · exact sample_uniform_data_length draws hlt
  · rw [sample_uniform_data_length draws hlt]
    exact windows_count_mul_le _
  · rintro - rfl
    refine ⟨window_size_1024, windows_count_1024, ?_⟩
    rw [sample_uniform_data_length draws hlt, window_size_1024, windows_count_1024]

/-- Witness for C3 at `data = [5, 6]`, `target_size = 1`, all draws 0. -/
theorem uniform_sample_output_length_witness :
    (0 < 1 ∧ 1 < [5, 6].length) ∧
    ∃ r, UniformSampler.sample [5, 6] 1 (fun _ => 0) = .ok r ∧
      r.data.length = windows_count 1 * window_size 1 ∧
      r.data.length ≤ 1 ∧
      ([5, 6].length = 1048576 → (1 : Nat) = 1024 →
        window_size 1 = 32 ∧ windows_count 1 = 32 ∧ r.data.length = 1024) :=
  ⟨⟨by decide, by decide⟩,
    uniform_sample_output_length [5, 6] 1 (fun _ => 0) (by decide) (by decide)⟩

/-- C4: the extracted windows are pairwise disjoint: for `i < j` the
half-open ranges `[offset_i, offset_i + window_size)` and
`[offset_j, offset_j + window_size)` of the final offsets do not
intersect. -/
theorem uniform_windows_disjoint (data_size target_size : Nat) (draws : Nat → Nat)
    (h0 : 0 < target_size) (hlt : target_size < data_size)
    (i j : Nat) (hij : i < j)
    (hj : j < (finalWindows data_size target_size draws).length) :
    Disjoint
      (Set.Ico ((finalWindows data_size target_size draws).get ⟨i, by omega⟩)
        ((finalWindows data_size target_size draws).get ⟨i, by omega⟩ +
          window_size target_size))
      (Set.Ico ((finalWindows data_size target_size draws)[j])
        ((finalWindows data_size target_size draws)[j] +
          window_size target_size)) := by
  have hsep := finalWindows_separated draws i j hij hj
  rw [Set.Ico_disjoint_Ico]
  omega

/-- Witness for C4 at `data_size = 5`, `target_size = 4`, all draws 0
(two windows of size 2). -/
theorem uniform_windows_disjoint_witness :
    (0 < 4 ∧ 4 < 5 ∧ 0 < 1 ∧ 1 < (finalWindows 5 4 (fun _ => 0)).length) ∧
    Disjoint
      (Set.Ico ((finalWindows 5 4 (fun _ => 0)).get ⟨0, by
          rw [length_finalWindows]
          unfold windows_count
          rw [window_size_4]
          decide⟩)
        ((finalWindows 5 4 (fun _ => 0)).get ⟨0, by
          rw [length_finalWindows]
          unfold windows_count
          rw [window_size_4]
          decide⟩ + window_size 4))
      (Set.Ico ((finalWindows 5 4 (fun _ => 0)).get ⟨1, by
          rw [length_finalWindows]
          unfold windows_count
          rw [window_size_4]
          decide⟩)
        ((finalWindows 5 4 (fun _ => 0)).get ⟨1, by
          rw [length_finalWindows]
          unfold windows_count
          rw [window_size_4]
          decide⟩ + window_size 4)) :=
  ⟨⟨by decide, by decide, by decide, by
      rw [length_finalWindows]
      unfold windows_count
      rw [window_size_4]
      decide⟩,
    uniform_windows_disjoint 5 4 (fun _ => 0) (by decide) (by decide) 0 1 (by decide)
      (by
        rw [length_finalWindows]
        unfold windows_count
        rw [window_size_4]
        decide)⟩

/-- C5: whenever `data_size ≤ target_size`, `sample` returns the entire
input byte range verbatim with `method = "full"` and
`sample_size = data_size`. -/
theorem sample_full_passthrough (data : List Nat) (target_size : Nat) (draws : Nat → Nat)
    (h : data.length ≤ target_size) :
    UniformSampler.sample data target_size draws =
      .ok { data := data
            metadata :=
              { original_size := data.length, sample_size := data.length
                method := "full" } } := by
  unfold UniformSampler.sample
  simp [h]

/-- Witness for C5 at `data = [1, 2, 3]`, `target_size = 5`. -/
theorem sample_full_passthrough_witness :
    [1, 2, 3].length ≤ 5 ∧
    UniformSampler.sample [1, 2, 3] 5 (fun _ => 0) =
      .ok { data := [1, 2, 3]
            metadata :=
              { original_size := 3, sample_size := 3, method := "full" } } :=
  ⟨by decide, sample_full_passthrough [1, 2, 3] 5 (fun _ => 0) (by decide)⟩

/-! ### LRU cache: src/core/cache.rs -/

/-- A cache entry (`CacheEntry`): the cached bytes and their recorded size. -/
structure CacheEntry where
  data : List Nat
  size : Nat
deriving DecidableEq, Repr

/-- `CacheStore`: `HashMap<u64, CacheEntry>` modelled as an association
list with unique keys, the LRU `VecDeque<u64>` (front = least recently
used), and the running size counter. -/
structure CacheStore where
  map : List (Nat × CacheEntry)
  order : List Nat
  total_size : Nat
deriving DecidableEq, Repr

/-- The cache (`Cache`): a capacity plus its store. -/
structure Cache where
  capacity : Nat
  store : CacheStore
deriving DecidableEq, Repr

/-- `HashMap::get` on the association list. -/
def mapLookup : List (Nat × CacheEntry) → Nat → Option CacheEntry
  | [], _ => none
  | (k, e) :: rest, key => if k = key then some e else mapLookup rest key

/-- `HashMap::remove` on the association list (with unique keys this
removes exactly the entry for `key`). -/
def mapRemove (m : List (Nat × CacheEntry)) (key : Nat) : List (Nat × CacheEntry) :=
  m.filter (fun p => p.1 ≠ key)

namespace Cache

/-- `Cache::new`. -/
def new (capacity : Nat) : Cache :=
  { capacity := capacity, store := { map := [], order := [], total_size := 0 } }

/-- `Cache::get`: on a hit, `store.order.retain(|&k| k != key)` followed by
`store.order.push_back(key)`, returning a clone of the entry data. -/
def get (c : Cache) (key : Nat) : Option (List Nat) × Cache :=
  match mapLookup c.store.map key with
  | some entry =>
      (some entry.data,
        { c with store :=
            { c.store with
                order := c.store.order.filter (fun k => k ≠ key) ++ [key] } })
  | none => (none, c)

/-- The eviction loop of `Cache::put`:
`while store.total_size + size > self.capacity && !store.order.is_empty()`,
popping the front of `order` and removing that key from the map. -/
def evictLoop (capacity size : Nat) :
    List (Nat × CacheEntry) → List Nat → Nat →
      List (Nat × CacheEntry) × List Nat × Nat
  | m, [], t => (m, [], t)
  | m, k :: rest, t =>
    if capacity < t + size then
      match mapLookup m k with
      | some e => evictLoop capacity size (mapRemove m k) rest (t - e.size)
      | none => evictLoop capacity size m rest t
    else (m, k :: rest, t)

/-- First phase of `Cache::put`: if the key already exists, remove its
entry, free its size and drop it from the LRU queue. -/
def putStep1 (s0 : CacheStore) (key : Nat) : CacheStore :=
  match mapLookup s0.map key with
  | some old =>
      { map := mapRemove s0.map key
        order := s0.order.filter (fun k => k ≠ key)
        total_size := s0.total_size - old.size }
  | none => s0

/-- `Cache::put`: remove any existing entry for the key, evict
least-recently-used entries until the new entry fits, then insert it
only if `total_size + size <= capacity`.  (`HashMap::insert` is modelled
by consing, which is key-set equivalent because the key was removed
first and eviction only removes entries.) -/
def put (c : Cache) (key : Nat) (data : List Nat) : Cache :=
  let size := data.length
  let s1 := putStep1 c.store key
  let r := evictLoop c.capacity size s1.map s1.order s1.total_size
  if r.2.2 + size ≤ c.capacity then
    { c with store :=
        { map := (key, { data := data, size := size }) :: r.1
          order := r.2.1 ++ [key]
          total_size := r.2.2 + size } }
  else
    { c with store := { map := r.1, order := r.2.1, total_size := r.2.2 } }

/-- `Cache::clear`. -/
def clear (c : Cache) : Cache :=
  { c with store := { map := [], order := [], total_size := 0 } }

/-- `CacheStats` as returned by `Cache::stats`. -/
structure CacheStats where
  entries : Nat
  total_size : Nat
  capacity : Nat
deriving DecidableEq, Repr

/-- `Cache::stats`. -/
def stats (c : Cache) : CacheStats :=
  { entries := c.store.map.length
    total_size := c.store.total_size
    capacity := c.capacity }

end Cache

/-- Well-formedness of a cache store: unique map keys, duplicate-free
LRU queue holding exactly the map keys, and a size counter equal to the
sum of the stored entries' sizes. -/
def CacheStore.WF (s : CacheStore) : Prop :=
  (s.map.map Prod.fst).Nodup ∧ s.order.Nodup ∧
  (∀ k, k ∈ s.order ↔ k ∈ s.map.map Prod.fst) ∧
  s.total_size = (s.map.map (fun p => p.2.size)).sum

/-! ### Cache lemmas -/

lemma mapLookup_eq_none {m : List (Nat × CacheEntry)} {key : Nat} :
    mapLookup m key = none ↔ key ∉ m.map Prod.fst := by
  induction m with
  | nil => simp [mapLookup]
  | cons p rest ih =>
    obtain ⟨k, e⟩ := p
    by_cases h : k = key
    · simp [mapLookup, h]
    · simp only [mapLookup, if_neg h, List.map_cons, List.mem_cons]
      rw [ih]
      constructor
      · intro hn hmem
        rcases hmem with h1 | h1
        · exact h h1.symm
        · exact hn h1
      · intro hn h1
        exact hn (Or.inr h1)

lemma mapRemove_sublist (m : List (Nat × CacheEntry)) (key : Nat) :
    List.Sublist (mapRemove m key) m := List.filter_sublist m

lemma nodup_keys_mapRemove {m : List (Nat × CacheEntry)} {key : Nat}
    (h : (m.map Prod.fst).Nodup) : ((mapRemove m key).map Prod.fst).Nodup :=
  h.sublist ((mapRemove_sublist m key).map Prod.fst)

lemma keys_mapRemove {m : List (Nat × CacheEntry)} {key j : Nat} :
    j ∈ (mapRemove m key).map Prod.fst ↔ j ∈ m.map Prod.fst ∧ j ≠ key := by
  simp only [mapRemove, List.mem_map, List.mem_filter, decide_eq_true_iff]
  constructor
  · rintro ⟨p, ⟨hp, hq⟩, rfl⟩
    exact ⟨⟨p, hp, rfl⟩, hq⟩
  · rintro ⟨⟨p, hp, rfl⟩, hne⟩
    exact ⟨p, ⟨hp, hne⟩, rfl⟩

lemma mapRemove_eq_self {m : List (Nat × CacheEntry)} {key : Nat}
    (h : key ∉ m.map Prod.fst) : mapRemove m key = m := by
  apply List.filter_eq_self.mpr
  intro p hp
  simp only [decide_eq_true_iff]
  intro hk
  exact h (List.mem_map.mpr ⟨p, hp, hk⟩)

lemma sum_mapRemove {m : List (Nat × CacheEntry)} {key : Nat} {e : CacheEntry}
    (hnd : (m.map Prod.fst).Nodup) (hl : mapLookup m key = some e) :
    (m.map (fun p => p.2.size)).sum =
      e.size + ((mapRemove m key).map (fun p => p.2.size)).sum := by
  induction m with
  | nil => simp [mapLookup] at hl
  | cons p rest ih =>
    obtain ⟨k, e'⟩ := p
    simp only [List.map_cons, List.nodup_cons] at hnd
    by_cases hk : k = key
    · subst hk
      simp only [mapLookup, if_pos rfl] at hl
      have hes : e' = e := by injection hl
      have hrem : mapRemove ((k, e') :: rest) k = rest := by
        unfold mapRemove
        rw [List.filter_cons, if_neg (by simp)]
        exact mapRemove_eq_self hnd.1
      rw [hrem]
      simp [hes]
    · simp only [mapLookup, if_neg hk] at hl
      have hrem : mapRemove ((k, e') :: rest) key = (k, e') :: mapRemove rest key := by
        unfold mapRemove
        rw [List.filter_cons, if_pos (by simp [hk])]
      rw [hrem]
      simp only [List.map_cons, List.sum_cons]
      rw [ih hnd.2 hl]
      omega

lemma evictLoop_spec (cap size : Nat) :
    ∀ (order : List Nat) (m : List (Nat × CacheEntry)) (t : Nat),
      (m.map Prod.fst).Nodup → order.Nodup →
      (∀ k, k ∈ order ↔ k ∈ m.map Prod.fst) →
      t = (m.map (fun p => p.2.size)).sum →
      (((Cache.evictLoop cap size m order t).1.map Prod.fst).Nodup ∧
        (Cache.evictLoop cap size m order t).2.1.Nodup ∧
        (∀ k, k ∈ (Cache.evictLoop cap size m order t).2.1 ↔
          k ∈ (Cache.evictLoop cap size m order t).1.map Prod.fst) ∧
        (Cache.evictLoop cap size m order t).2.2 =
          ((Cache.evictLoop cap size m order t).1.map (fun p => p.2.size)).sum) ∧
      (Cache.evictLoop cap size m order t).2.2 ≤ t ∧
      ((Cache.evictLoop cap size m order t).2.2 + size ≤ cap ∨
        (Cache.evictLoop cap size m order t).2.1 = []) ∧
      (∀ j, j ∈ (Cache.evictLoop cap size m order t).1.map Prod.fst →
        j ∈ m.map Prod.fst) := by
  intro order
  induction order with
  | nil =>
    intro m t hnd hond hmemiff hsum
    exact ⟨⟨hnd, hond, hmemiff, hsum⟩, le_refl _, Or.inr rfl, fun j hj => hj⟩
  | cons k rest ih =>
    intro m t hnd hond hmemiff hsum
    rw [List.nodup_cons] at hond
    simp only [Cache.evictLoop]
    by_cases hcond : cap < t + size
    · rw [if_pos hcond]
      have hkmem : k ∈ m.map Prod.fst := (hmemiff k).1 (by simp)
      cases hlk : mapLookup m k with
      | none => exact absurd hkmem (mapLookup_eq_none.mp hlk)
      | some e =>
        dsimp only
        have hmem' : ∀ j, j ∈ rest ↔ j ∈ (mapRemove m k).map Prod.fst := by
          intro j
          constructor
          · intro hj
            refine keys_mapRemove.mpr ⟨(hmemiff j).1 (by simp [hj]), ?_⟩
            intro hjk
            exact hond.1 (by rwa [hjk] at hj)
          · intro hj
            obtain ⟨hj1, hj2⟩ := keys_mapRemove.mp hj
            have hj3 := (hmemiff j).2 hj1
            simp only [List.mem_cons] at hj3
            rcases hj3 with h1 | h1
            · exact absurd h1 hj2
            · exact h1
        have hsum2 := sum_mapRemove hnd hlk
        obtain ⟨hw, hle, hfit, hmono⟩ := ih (mapRemove m k) (t - e.size)
          (nodup_keys_mapRemove hnd) hond.2 hmem' (by omega)
        refine ⟨hw, by omega, hfit, ?_⟩
        intro j hj
        exact (keys_mapRemove.mp (hmono j hj)).1
    · rw [if_neg hcond]
      dsimp only
      refine ⟨⟨hnd, ?_, hmemiff, hsum⟩, le_refl _, Or.inl (by omega), fun j hj => hj⟩
      rw [List.nodup_cons]
      exact hond

lemma putStep1_spec {s0 : CacheStore} {key : Nat} (h : s0.WF) :
    (Cache.putStep1 s0 key).WF ∧
    (Cache.putStep1 s0 key).total_size ≤ s0.total_size ∧
    key ∉ (Cache.putStep1 s0 key).map.map Prod.fst := by
  obtain ⟨hnd, hond, hmemiff, hsum⟩ := h
  unfold Cache.putStep1
  cases hlk : mapLookup s0.map key with
  | none =>
    exact ⟨⟨hnd, hond, hmemiff, hsum⟩, le_refl _, mapLookup_eq_none.mp hlk⟩
  | some old =>
    refine ⟨⟨nodup_keys_mapRemove hnd, hond.filter _, ?_, ?_⟩, by simp, ?_⟩
    · intro j
      simp only [List.mem_filter, decide_eq_true_iff]
      rw [keys_mapRemove]
      rw [hmemiff j]
    · have h2 := sum_mapRemove hnd hlk
      simp only
      omega
    · intro hmem
      exact (keys_mapRemove.mp hmem).2 rfl

lemma put_spec {c : Cache} {key : Nat} {data : List Nat} (h : c.store.WF) :
    (c.put key data).store.WF ∧
    (c.store.total_size ≤ c.capacity → (c.put key data).store.total_size ≤ c.capacity) ∧
    (c.capacity < data.length →
      (c.put key data).store.map = [] ∧
      mapLookup (c.put key data).store.map key = none) := by
  obtain ⟨hwf1, hle1, hnk1⟩ := @putStep1_spec c.store key h
  obtain ⟨hnd1, hond1, hmem1, hsum1⟩ := hwf1
  obtain ⟨⟨hndr, hondr, hmemr, hsumr⟩, hler, hfitr, hmonor⟩ :=
    evictLoop_spec c.capacity data.length (Cache.putStep1 c.store key).order
      (Cache.putStep1 c.store key).map (Cache.putStep1 c.store key).total_size
      hnd1 hond1 hmem1 hsum1
  set r := Cache.evictLoop c.capacity data.length (Cache.putStep1 c.store key).map
    (Cache.putStep1 c.store key).order (Cache.putStep1 c.store key).total_size with hrdef
  have hknotr : key ∉ r.1.map Prod.fst := fun hmem => hnk1 (hmonor key hmem)
  have hknotro : key ∉ r.2.1 := fun hmem => hknotr ((hmemr key).1 hmem)
  simp only [Cache.put]
  rw [← hrdef]
  by_cases hfits : r.2.2 + data.length ≤ c.capacity
  · rw [if_pos hfits]
    refine ⟨⟨?_, ?_, ?_, ?_⟩, fun _ => hfits, fun hbig => absurd hfits (by omega)⟩
    · exact List.nodup_cons.mpr ⟨hknotr, hndr⟩
    · exact List.Nodup.append hondr (List.nodup_singleton key)
        (fun a ha hb => by
          simp only [List.mem_singleton] at hb
          subst hb
          exact hknotro ha)
    · intro j
      show j ∈ r.2.1 ++ [key] ↔ j ∈ key :: r.1.map Prod.fst
      simp only [List.mem_append, List.mem_singleton, List.mem_cons]
      rw [hmemr j]
      tauto
    · show r.2.2 + data.length =
        (((key, ⟨data, data.length⟩) :: r.1).map (fun p => p.2.size)).sum
      simp only [List.map_cons, List.sum_cons]
      omega
  · rw [if_neg hfits]
    have hempty : r.2.1 = [] := by
      rcases hfitr with h1 | h1
      · exact absurd h1 hfits
      · exact h1
    refine ⟨⟨hndr, hondr, hmemr, hsumr⟩, fun hpre => by
      show r.2.2 ≤ c.capacity
      omega, fun hbig => ?_⟩
    have hkeys : r.1.map Prod.fst = [] := by
      rw [List.eq_nil_iff_forall_not_mem]
      intro j hj
      have := (hmemr j).2 hj
      rw [hempty] at this
      exact absurd this (List.not_mem_nil j)
    have hmapnil : r.1 = [] := by
      cases hm : r.1 with
      | nil => rfl
      | cons p rest =>
        rw [hm] at hkeys
        simp at hkeys
    refine ⟨hmapnil, ?_⟩
    show mapLookup r.1 key = none
    rw [hmapnil]
    rfl

lemma get_spec {c : Cache} {key : Nat} (h : c.store.WF) :
    (c.get key).2.store.WF ∧
    (c.get key).2.store.total_size = c.store.total_size := by
  obtain ⟨hnd, hond, hmemiff, hsum⟩ := h
  unfold Cache.get
  cases hlk : mapLookup c.store.map key with
  | none => exact ⟨⟨hnd, hond, hmemiff, hsum⟩, rfl⟩
  | some e =>
    dsimp only
    have hkeymem : key ∈ c.store.map.map Prod.fst := by
      by_contra hh
      rw [mapLookup_eq_none.mpr hh] at hlk
      exact Option.noConfusion hlk
    refine ⟨⟨hnd, ?_, ?_, hsum⟩, rfl⟩
    · exact List.Nodup.append (hond.filter _) (List.nodup_singleton key)
        (fun a ha hb => by
          simp only [List.mem_singleton] at hb
          subst hb
          have := (List.mem_filter.mp ha).2
          simp at this)
    · intro j
      by_cases hj : j = key
      · subst hj
        simp [hkeymem]
      · simp only [List.mem_append, List.mem_singleton, List.mem_filter,
          decide_eq_true_iff, hj, or_false]
        rw [hmemiff j]
        simp [hj]

lemma clear_spec (c : Cache) : c.clear.store.WF ∧ c.clear.store.total_size = 0 :=
  ⟨⟨List.nodup_nil, List.nodup_nil, fun k => Iff.rfl, rfl⟩, rfl⟩

/-! ### Claims about the cache -/

/-- C6 (amended): the cache preserves `total_size ≤ capacity` after every
operation (`get`, `put`, `clear`), where well-formedness ties `total_size`
to the sum of the stored entries' sizes; a put whose byte sequence is
larger than the whole capacity is not inserted (a subsequent get of that
key returns absent), but — contrary to the original claim — such a put
first evicts every existing entry, so `stats().entries` afterwards is 0
rather than unchanged. -/
theorem cache_capacity_invariant (c : Cache) (key : Nat) (data : List Nat)
    (h : c.store.WF) (hcap : c.store.total_size ≤ c.capacity) :
    ((c.get key).2.store.WF ∧ (c.get key).2.store.total_size ≤ c.capacity) ∧
    ((c.put key data).store.WF ∧ (c.put key data).store.total_size ≤ c.capacity) ∧
    (c.clear.store.WF ∧ c.clear.store.total_size ≤ c.capacity) ∧
    (c.capacity < data.length →
      ((c.put key data).get key).1 = none ∧ (c.put key data).stats.entries = 0) := by
  obtain ⟨hg1, hg2⟩ := @get_spec c key h
  obtain ⟨hp1, hp2, hp3⟩ := @put_spec c key data h
  obtain ⟨hc1, hc2⟩ := clear_spec c
  refine ⟨⟨hg1, by omega⟩, ⟨hp1, hp2 hcap⟩, ⟨hc1, by omega⟩, fun hbig => ?_⟩
  obtain ⟨hmap, hlook⟩ := hp3 hbig
  constructor
  · unfold Cache.get
    rw [hlook]
  · simp [Cache.stats, hmap]

/-- Witness for C6 on the empty cache of capacity 10 with key 1 and a
single-byte value. -/
theorem cache_capacity_invariant_witness :
    ((Cache.new 10).store.WF ∧ (Cache.new 10).store.total_size ≤ (Cache.new 10).capacity) ∧
    ((((Cache.new 10).get 1).2.store.WF ∧
        ((Cache.new 10).get 1).2.store.total_size ≤ (Cache.new 10).capacity) ∧
      (((Cache.new 10).put 1 [7]).store.WF ∧
        ((Cache.new 10).put 1 [7]).store.total_size ≤ (Cache.new 10).capacity) ∧
      ((Cache.new 10).clear.store.WF ∧
        (Cache.new 10).clear.store.total_size ≤ (Cache.new 10).capacity) ∧
      ((Cache.new 10).capacity < [7].length →
        (((Cache.new 10).put 1 [7]).get 1).1 = none ∧
          ((Cache.new 10).put 1 [7]).stats.entries = 0)) :=
  ⟨⟨⟨by simp [Cache.new], by simp [Cache.new], fun k => by simp [Cache.new], rfl⟩,
      by simp [Cache.new]⟩,
    cache_capacity_invariant (Cache.new 10) 1 [7]
      ⟨by simp [Cache.new], by simp [Cache.new], fun k => by simp [Cache.new], rfl⟩
      (by simp [Cache.new])⟩

/-- C6 counterexample: with capacity 10, after putting a 5-byte entry
under key 1, putting an 11-byte entry under key 2 (larger than the whole
capacity) drops the new entry but also evicts key 1, so `stats().entries`
goes from 1 to 0 — it is not left unchanged as claimed. -/
theorem cache_oversize_put_changes_entries :
    ((Cache.new 10).put 1 (List.replicate 5 0)).stats.entries = 1 ∧
    (((Cache.new 10).put 1 (List.replicate 5 0)).put 2 (List.replicate 11 0)).stats.entries = 0 ∧
    (((Cache.new 10).put 1 (List.replicate 5 0)).put 2 (List.replicate 11 0)).stats.entries ≠
      ((Cache.new 10).put 1 (List.replicate 5 0)).stats.entries := by
  refine ⟨rfl, rfl, by decide⟩

/-- The LRU scenario from the spec: capacity 1024, three 512-byte puts
under keys 1, 2, 3. -/
def lruScenario : Cache :=
  (((Cache.new 1024).put 1 (List.replicate 512 0)).put 2
      (List.replicate 512 0)).put 3 (List.replicate 512 0)

set_option maxRecDepth 8192 in
/-- C7: strict LRU by access order: with capacity 1024, putting three
512-byte entries under keys 1, 2, 3 evicts key 1 before key 3 is
inserted, so `get(1)` is absent while `get(2)` and `get(3)` are present;
and a `get` hit promotes the key to most-recently-used (the back of the
order queue). -/
theorem cache_lru_eviction :
    (lruScenario.get 1).1 = none ∧
    (lruScenario.get 2).1.isSome = true ∧
    (lruScenario.get 3).1.isSome = true ∧
    lruScenario.store.order = [2, 3] ∧
    (lruScenario.get 2).2.store.order = [3, 2] := by
  refine ⟨rfl, rfl, rfl, rfl, rfl⟩

/-! ### Streaming: `stream_sample` (src/server/websocket.rs) and the
client `DataManager` (frontend/src/core/DataManager.js) -/

/-- The payload of one data frame (`protocol::DataMessage`):
`{ offset, total, chunk }`. -/
structure DataMessage where
  offset : Nat
  total : Nat
  chunk : List Nat
deriving DecidableEq, Repr

/-- `const CHUNK_SIZE: usize = 256 * 1024;` -/
def CHUNK_SIZE : Nat := 256 * 1024

/-- `stream_sample`: the sending loop
`while offset < total { let end = (offset + CHUNK_SIZE).min(total); ... }`,
emitting one `DataMessage` per slice.  The server enters it with
`offset = 0`. -/
def stream_sample (sample : List Nat) (offset : Nat) : List DataMessage :=
  if offset < sample.length then
    let e := min (offset + CHUNK_SIZE) sample.length
    { offset := offset, total := sample.length
      chunk := (sample.drop offset).take (e - offset) } :: stream_sample sample e
  else []
termination_by sample.length - offset
decreasing_by
  simp_wf
  have hc : 0 < CHUNK_SIZE := by norm_num [CHUNK_SIZE]
  omega

/-- The client-side `DataManager` state. -/
structure DataManager where
  buffer : Option (List Nat)
  totalSize : Nat
  receivedSize : Nat
deriving DecidableEq, Repr

namespace DataManager

/-- `initialize(totalSize)` (source name kept up to Lean constraints):
allocate a zero-filled buffer of `totalSize` bytes and reset the
received-byte counter. -/
def init (totalSize : Nat) : DataManager :=
  { buffer := some (List.replicate totalSize 0), totalSize := totalSize
    receivedSize := 0 }

/-- `Uint8Array.prototype.set(chunk, offset)`: overwrite
`buf[offset .. offset + chunk.length)` with `chunk`.  `addChunk` below
only applies it in bounds, where this equals the JS semantics. -/
def writeBytes (buf : List Nat) (offset : Nat) (chunk : List Nat) : List Nat :=
  buf.take offset ++ chunk ++ buf.drop (offset + chunk.length)

/-- `addChunk(offset, chunk)`: throws if the buffer is missing
(`Buffer not initialized`) or if the typed-array write is out of range
(JS `RangeError`); otherwise writes the chunk at its offset, adds
`chunk.length` to `receivedSize`, and returns `true` — which is exactly
when the `onData` callback fires — iff `receivedSize >= totalSize`. -/
def addChunk (dm : DataManager) (offset : Nat) (chunk : List Nat) :
    Except String (Bool × DataManager) :=
  match dm.buffer with
  | none => .error "Buffer not initialized"
  | some b =>
    if b.length < offset + chunk.length then
      .error "RangeError: offset is out of bounds"
    else
      .ok (decide (dm.totalSize ≤ dm.receivedSize + chunk.length),
        { buffer := some (writeBytes b offset chunk)
          totalSize := dm.totalSize
          receivedSize := dm.receivedSize + chunk.length })

end DataManager

/-- Feed a list of data frames through `DataManager.addChunk` in order:
the client writes each received chunk at its declared offset. -/
def runChunks (dm : DataManager) : List DataMessage → Except String DataManager
  | [] => .ok dm
  | msg :: rest =>
    match dm.addChunk msg.offset msg.chunk with
    | .error e => .error e
    | .ok (_, dm') => runChunks dm' rest

/-! ### Streaming lemmas -/

lemma writeBytes_length {b chunk : List Nat} {offset : Nat}
    (h : offset + chunk.length ≤ b.length) :
    (DataManager.writeBytes b offset chunk).length = b.length := by
  unfold DataManager.writeBytes
  simp only [List.length_append, List.length_take, List.length_drop]
  omega

lemma CHUNK_SIZE_pos : 0 < CHUNK_SIZE := by norm_num [CHUNK_SIZE]

lemma stream_sample_nil {s : List Nat} {offset : Nat} (h : ¬ offset < s.length) :
    stream_sample s offset = [] := by
  rw [stream_sample, if_neg h]

lemma take_drop_chunk (s : List Nat) {offset e : Nat} (ho : offset ≤ e) (he : e ≤ s.length) :
    (s.drop offset).take (e - offset) ++ s.drop e = s.drop offset := by
  rw [show s.drop e = (s.drop offset).drop (e - offset) by
    rw [List.drop_drop]; congr 1; omega]
  exact List.take_append_drop _ _

lemma stream_sample_props_aux (s : List Nat) :
    ∀ n offset, s.length - offset ≤ n →
      ((stream_sample s offset).map DataMessage.chunk).flatten = s.drop offset ∧
      (∀ m ∈ stream_sample s offset,
        m.chunk.length ≤ CHUNK_SIZE ∧ 0 < m.chunk.length ∧
        m.offset + m.chunk.length ≤ s.length ∧ m.total = s.length ∧ offset ≤ m.offset) ∧
      List.Chain' (fun a b : DataMessage =>
        b.offset = a.offset + a.chunk.length ∧ a.offset < b.offset)
        (stream_sample s offset) ∧
      (∀ m, (stream_sample s offset).head? = some m → m.offset = offset) := by
  intro n
  induction n with
  | zero =>
    intro offset h
    rw [stream_sample_nil (by omega)]
    refine ⟨?_, by simp, by simp, by simp⟩
    simp only [List.map_nil, List.flatten_nil]
    rw [List.drop_eq_nil_iff.mpr (by omega)]
  | succ n ih =>
    intro offset h
    by_cases hlt : offset < s.length
    · rw [stream_sample, if_pos hlt]
      have hc := CHUNK_SIZE_pos
      set e := min (offset + CHUNK_SIZE) s.length with he
      have he1 : offset < e := by omega
      have he2 : e ≤ s.length := by omega
      have hrec : s.length - e ≤ n := by omega
      obtain ⟨ihf, ihm, ihc, ihh⟩ := ih e hrec
      have hclen : ((s.drop offset).take (e - offset)).length = e - offset := by
        simp only [List.length_take, List.length_drop]
        omega
      refine ⟨?_, ?_, ?_, ?_⟩
      · simp only [List.map_cons, List.flatten_cons]
        rw [ihf]
        exact take_drop_chunk s (by omega) he2
      · intro m hm
        rcases List.mem_cons.mp hm with rfl | hm
        · exact ⟨by simp only [hclen]; omega, by simp only [hclen]; omega,
            by simp only [hclen]; omega, rfl, le_refl _⟩
        · obtain ⟨h1, h2, h3, h4, h5⟩ := ihm m hm
          exact ⟨h1, h2, h3, h4, by omega⟩
      · rw [List.chain'_cons']
        refine ⟨?_, ihc⟩
        intro b hb
        have hb2 := ihh b hb
        refine ⟨by simp only [hclen]; omega, by simp only [hclen]; omega⟩
      · intro m hm
        rw [List.head?_cons] at hm
        injection hm with hm
        rw [← hm]
    · rw [stream_sample_nil hlt]
      refine ⟨?_, by simp, by simp, by simp⟩
      simp only [List.map_nil, List.flatten_nil]
      rw [List.drop_eq_nil_iff.mpr (by omega)]

lemma stream_sample_props (s : List Nat) (offset : Nat) :
    ((stream_sample s offset).map DataMessage.chunk).flatten = s.drop offset ∧
    (∀ m ∈ stream_sample s offset,
      m.chunk.length ≤ CHUNK_SIZE ∧ 0 < m.chunk.length ∧
      m.offset + m.chunk.length ≤ s.length ∧ m.total = s.length ∧ offset ≤ m.offset) ∧
    List.Chain' (fun a b : DataMessage =>
      b.offset = a.offset + a.chunk.length ∧ a.offset < b.offset)
      (stream_sample s offset) ∧
    (∀ m, (stream_sample s offset).head? = some m → m.offset = offset) :=
  stream_sample_props_aux s (s.length - offset) offset (le_refl _)

lemma runChunks_cons_ok {dm dm' : DataManager} {o t : Nat} {ch : List Nat}
    {rest : List DataMessage} {flag : Bool}
    (h : dm.addChunk o ch = .ok (flag, dm')) :
    runChunks dm (⟨o, t, ch⟩ :: rest) = runChunks dm' rest := by
  simp only [runChunks]
  rw [h]

lemma runChunks_stream_aux (s : List Nat) :
    ∀ n offset b T recv, s.length - offset ≤ n → b.length = s.length →
      runChunks ⟨some b, T, recv⟩ (stream_sample s offset) =
        .ok ⟨some (b.take offset ++ s.drop offset), T, recv + (s.length - offset)⟩ := by
  intro n
  induction n with
  | zero =>
    intro offset b T recv h hb
    rw [stream_sample_nil (by omega)]
    simp only [runChunks]
    rw [List.take_of_length_le (by omega), List.drop_eq_nil_iff.mpr (by omega)]
    have h0 : s.length - offset = 0 := by omega
    rw [h0]
    simp
  | succ n ih =>
    intro offset b T recv h hb
    by_cases hlt : offset < s.length
    · rw [stream_sample, if_pos hlt]
      have hc := CHUNK_SIZE_pos
      set e := min (offset + CHUNK_SIZE) s.length with he
      have he1 : offset < e := by omega
      have he2 : e ≤ s.length := by omega
      have hclen : ((s.drop offset).take (e - offset)).length = e - offset := by
        simp only [List.length_take, List.length_drop]
        omega
      have haddc : (⟨some b, T, recv⟩ : DataManager).addChunk offset
          ((s.drop offset).take (e - offset)) =
          .ok (decide (T ≤ recv + (e - offset)),
            ⟨some (DataManager.writeBytes b offset ((s.drop offset).take (e - offset))), T,
              recv + (e - offset)⟩) := by
        simp only [DataManager.addChunk]
        rw [if_neg (by rw [hclen]; omega), hclen]
      rw [runChunks_cons_ok haddc]
      have hwlen : (DataManager.writeBytes b offset
          ((s.drop offset).take (e - offset))).length = s.length := by
        rw [writeBytes_length (by rw [hclen]; omega)]
        exact hb
      rw [ih e _ T _ (by omega) hwlen]
      have hta : (b.take offset).length = offset := by
        simp only [List.length_take]
        omega
      have hbuf : (DataManager.writeBytes b offset ((s.drop offset).take (e - offset))).take e ++
          s.drop e = b.take offset ++ s.drop offset := by
        unfold DataManager.writeBytes
        have hA : (b.take offset).take e = b.take offset :=
          List.take_of_length_le (by rw [hta]; omega)
        have hCh : ((s.drop offset).take (e - offset)).take (e - offset) =
            (s.drop offset).take (e - offset) :=
          List.take_of_length_le (by rw [hclen])
        rw [List.append_assoc, List.take_append_eq_append_take, hA, hta,
          List.take_append_eq_append_take, hCh, hclen, Nat.sub_self, List.take_zero,
          List.append_nil, List.append_assoc]
        congr 1
        exact take_drop_chunk s (by omega) he2
      rw [hbuf]
      have hrecv : recv + (e - offset) + (s.length - e) = recv + (s.length - offset) := by
        omega
      rw [hrecv]
    · rw [stream_sample_nil hlt]
      simp only [runChunks]
      rw [List.take_of_length_le (by omega), List.drop_eq_nil_iff.mpr (by omega)]
      have h0 : s.length - offset = 0 := by omega
      rw [h0]
      simp

/-! ### Claims about streaming -/

/-- C8: streaming round-trip: for a sampler output of size `N` the server
emits data frames in ascending offset order, each carrying at most
256 KiB, whose offsets and lengths exactly tile `[0, N)` (consecutive
offsets starting at 0, chunks concatenating back to the sample);
feeding them to the client `DataManager` initialized with `N`
reconstructs a buffer of length `N` that is byte-identical to the
sampler's direct output. -/
theorem stream_roundtrip (data : List Nat) (target_size : Nat) (draws : Nat → Nat)
    (r : SampleResult) (h : UniformSampler.sample data target_size draws = .ok r) :
    List.Chain' (fun a b : DataMessage => a.offset < b.offset) (stream_sample r.data 0) ∧
    (∀ m ∈ stream_sample r.data 0, m.chunk.length ≤ CHUNK_SIZE) ∧
    List.Chain' (fun a b : DataMessage => b.offset = a.offset + a.chunk.length)
      (stream_sample r.data 0) ∧
    (∀ m, (stream_sample r.data 0).head? = some m → m.offset = 0) ∧
    (∀ m ∈ stream_sample r.data 0,
      m.offset + m.chunk.length ≤ r.data.length ∧ m.total = r.data.length) ∧
    ((stream_sample r.data 0).map DataMessage.chunk).flatten = r.data ∧
    runChunks (DataManager.init r.data.length) (stream_sample r.data 0) =
      .ok ⟨some r.data, r.data.length, r.data.length⟩ := by
  obtain ⟨hf, hm, hc, hh⟩ := stream_sample_props r.data 0
  refine ⟨?_, ?_, ?_, hh, ?_, ?_, ?_⟩
  · exact hc.imp (fun _ _ hab => hab.2)
  · intro m hmem
    exact (hm m hmem).1
  · exact hc.imp (fun _ _ hab => hab.1)
  · intro m hmem
    obtain ⟨-, -, h3, h4, -⟩ := hm m hmem
    exact ⟨h3, h4⟩
  · simpa using hf
  · have hrun := runChunks_stream_aux r.data r.data.length 0
      (List.replicate r.data.length 0) r.data.length 0 (by omega) (by simp)
    unfold DataManager.init
    rw [hrun]
    simp

/-- Witness for C8 with the full-passthrough sample of `[1, 2]` at
target size 5. -/
theorem stream_roundtrip_witness :
    UniformSampler.sample [1, 2] 5 (fun _ => 0) = .ok ⟨[1, 2], ⟨2, 2, "full"⟩⟩ ∧
    (List.Chain' (fun a b : DataMessage => a.offset < b.offset) (stream_sample [1, 2] 0) ∧
      (∀ m ∈ stream_sample [1, 2] 0, m.chunk.length ≤ CHUNK_SIZE) ∧
      List.Chain' (fun a b : DataMessage => b.offset = a.offset + a.chunk.length)
        (stream_sample [1, 2] 0) ∧
      (∀ m, (stream_sample [1, 2] 0).head? = some m → m.offset = 0) ∧
      (∀ m ∈ stream_sample [1, 2] 0,
        m.offset + m.chunk.length ≤ ([1, 2] : List Nat).length ∧
          m.total = ([1, 2] : List Nat).length) ∧
      ((stream_sample [1, 2] 0).map DataMessage.chunk).flatten = [1, 2] ∧
      runChunks (DataManager.init ([1, 2] : List Nat).length) (stream_sample [1, 2] 0) =
        .ok ⟨some [1, 2], ([1, 2] : List Nat).length, ([1, 2] : List Nat).length⟩) :=
  ⟨rfl, stream_roundtrip [1, 2] 5 (fun _ => 0) ⟨[1, 2], ⟨2, 2, "full"⟩⟩ rfl⟩

/-! ### WebSocket session: `handle_socket` / `handle_message`
(src/server/websocket.rs) -/

/-- The error taxonomy (src/error.rs `AppError`), restricted to the
variants reachable from the session code. -/
inductive AppError
  | SamplingFailed (msg : String)
  | InvalidSampleSize (size : Nat)
  | InvalidMessage
  | ConnectionClosed
deriving DecidableEq, Repr

/-- What one inbound binary frame decodes to: `undecodable` covers any
bytes rejected by the envelope decode; `sampleRequest` carries whether
its payload decodes (`payloadOk`) and the requested size; `control`
carries the decoded command string of the control payload; `otherType`
is a well-formed envelope of any other message type. -/
inductive FrameContent
  | undecodable
  | sampleRequest (payloadOk : Bool) (sample_size : Nat)
  | control (command : String)
  | otherType
deriving DecidableEq, Repr

/-- Modelled from the spec: `handle_control_message` is called by
`handle_message` on `Control` frames but its body is not part of the
available source; per spec §4.4 only the `sample` command is accepted
and "unknown commands are an `InvalidMessage` error, not a silent
no-op". -/
def handle_control_message (command : String) : Except AppError Unit :=
  if command = "sample" then .ok () else .error .InvalidMessage

/-- An outbound frame queued on the session's channel.  The session
code only ever enqueues data frames (`stream_sample` output); the
`errorFrame` constructor exists so that "how many error frames were
sent" is expressible — no code path constructs it. -/
inductive OutFrame
  | data (m : DataMessage)
  | errorFrame (e : AppError)
deriving DecidableEq, Repr

/-- `handle_message`: decode the envelope (failure → `InvalidMessage`),
then dispatch on the message type: `SampleRequest` → decode its payload
(failure → `InvalidMessage`), perform the sampling (abstracted by
`sampleOf`, the bytes produced for a requested size) and chunk it with
`stream_sample`; `Control` → `handle_control_message`; any other type →
`InvalidMessage`. -/
def handle_message (sampleOf : Nat → List Nat) (frame : FrameContent) :
    Except AppError (List OutFrame) :=
  match frame with
  | .undecodable => .error .InvalidMessage
  | .sampleRequest payloadOk sz =>
    if payloadOk then
      .ok ((stream_sample (sampleOf sz) 0).map .data)
    else
      .error .InvalidMessage
  | .control command => (handle_control_message command).map (fun _ => [])
  | .otherType => .error .InvalidMessage

/-- One inbound WebSocket message as seen by the receive task of
`handle_socket`. -/
inductive InFrame
  | binary (c : FrameContent)
  | close
  | wsError
  | other
deriving DecidableEq, Repr

/-- The receive task of `handle_socket`: binary frames go through
`handle_message` (whose outbound frames are forwarded on the channel);
on an error the task logs it and breaks ("fast-fail") — nothing is
sent; a peer close frame or a transport error also breaks; remaining
message kinds are ignored.  The returned list is everything the session
sends for the given inbound sequence. -/
def recvLoop (sampleOf : Nat → List Nat) : List InFrame → List OutFrame
  | [] => []
  | .binary c :: rest =>
    match handle_message sampleOf c with
    | .ok outs => outs ++ recvLoop sampleOf rest
    | .error _ => []
  | .close :: _ => []
  | .wsError :: _ => []
  | .other :: rest => recvLoop sampleOf rest

/-- Number of error frames in a session output. -/
def errorFrameCount (outs : List OutFrame) : Nat :=
  (outs.filter (fun o => match o with | .errorFrame _ => true | .data _ => false)).length

/-! ### Claim about the session error path -/

/-- C9 (code bug evidence): a control frame with an unrecognized command
makes `handle_message` fail with `InvalidMessage` and the receive loop
break, so no data frames are ever emitted afterwards — but the session
sends zero error frames, not exactly one: `handle_socket` merely logs
the error and breaks, so the whole session output is empty. -/
theorem unknown_command_sends_no_error_frame (sampleOf : Nat → List Nat)
    (command : String) (rest : List InFrame) (h : command ≠ "sample") :
    handle_message sampleOf (.control command) = .error .InvalidMessage ∧
    recvLoop sampleOf (.binary (.control command) :: rest) = [] ∧
    errorFrameCount (recvLoop sampleOf (.binary (.control command) :: rest)) = 0 := by
  have hm : handle_message sampleOf (.control command) = .error .InvalidMessage := by
    simp [handle_message, handle_control_message, h, Except.map]
  refine ⟨hm, ?_, ?_⟩
  · simp [recvLoop, hm]
  · simp [recvLoop, hm, errorFrameCount]

/-- Witness for C9 at the command "pause" followed by a valid sample
request that is never served. -/
theorem unknown_command_sends_no_error_frame_witness :
    handle_message (fun _ => [1, 2, 3]) (.control "pause") = .error .InvalidMessage ∧
    recvLoop (fun _ => [1, 2, 3])
      [.binary (.control "pause"), .binary (.sampleRequest true 3)] = [] ∧
    errorFrameCount (recvLoop (fun _ => [1, 2, 3])
      [.binary (.control "pause"), .binary (.sampleRequest true 3)]) = 0 :=
  unknown_command_sends_no_error_frame (fun _ => [1, 2, 3]) "pause"
    [.binary (.sampleRequest true 3)] (by decide)

/-! ### Claim about DataManager completion -/

lemma addChunk_ok {dm dm' : DataManager} {offset : Nat} {chunk : List Nat} {flag : Bool}
    (h : dm.addChunk offset chunk = .ok (flag, dm')) :
    dm'.receivedSize = dm.receivedSize + chunk.length ∧ dm'.totalSize = dm.totalSize ∧
    flag = decide (dm.totalSize ≤ dm.receivedSize + chunk.length) := by
  unfold DataManager.addChunk at h
  cases hb : dm.buffer with
  | none =>
    rw [hb] at h
    simp at h
  | some b =>
    rw [hb] at h
    dsimp only at h
    by_cases hg : b.length < offset + chunk.length
    · rw [if_pos hg] at h
      simp at h
    · rw [if_neg hg] at h
      simp only [Except.ok.injEq, Prod.mk.injEq] at h
      obtain ⟨h1, h2⟩ := h
      subst h2
      exact ⟨rfl, rfl, h1.symm⟩

lemma runChunks_received :
    ∀ (msgs : List DataMessage) (dm dm' : DataManager),
      runChunks dm msgs = .ok dm' →
      dm'.receivedSize = dm.receivedSize + (msgs.map (fun m => m.chunk.length)).sum ∧
      dm'.totalSize = dm.totalSize := by
  intro msgs
  induction msgs with
  | nil =>
    intro dm dm' h
    simp only [runChunks, Except.ok.injEq] at h
    subst h
    simp
  | cons msg rest ih =>
    intro dm dm' h
    simp only [runChunks] at h
    cases haddc : dm.addChunk msg.offset msg.chunk with
    | error e =>
      rw [haddc] at h
      simp at h
    | ok p =>
      obtain ⟨flag, dm1⟩ := p
      rw [haddc] at h
      obtain ⟨h1, h2, -⟩ := addChunk_ok haddc
      obtain ⟨ih1, ih2⟩ := ih dm1 dm' h
      refine ⟨?_, by omega⟩
      rw [ih1, h1]
      simp only [List.map_cons, List.sum_cons]
      omega

/-- C10: the client `DataManager` decides completion by cumulative byte
count alone, not by offset coverage: an in-bounds `addChunk` returns
`true` (firing the `onData` callback) exactly when
`receivedSize + chunk.length` reaches `totalSize`, with the offset
playing no role in the flag; `receivedSize` accumulates every chunk's
length regardless of offsets (duplicates and overlaps included); and a
buffer reported complete can retain never-written gaps — concretely,
two 2-byte writes, both at offset 0, complete a 4-byte buffer whose
bytes 2 and 3 still hold their initial zeros. -/
theorem dataManager_completion_by_count :
    (∀ (dm : DataManager) (b : List Nat) (offset : Nat) (chunk : List Nat),
      dm.buffer = some b → offset + chunk.length ≤ b.length →
      dm.addChunk offset chunk =
        .ok (decide (dm.totalSize ≤ dm.receivedSize + chunk.length),
          { buffer := some (DataManager.writeBytes b offset chunk)
            totalSize := dm.totalSize
            receivedSize := dm.receivedSize + chunk.length })) ∧
    (∀ (msgs : List DataMessage) (dm dm' : DataManager),
      runChunks dm msgs = .ok dm' →
      dm'.receivedSize = dm.receivedSize + (msgs.map (fun m => m.chunk.length)).sum ∧
      dm'.totalSize = dm.totalSize) ∧
    ((DataManager.init 4).addChunk 0 [7, 7] =
        .ok (false, ⟨some [7, 7, 0, 0], 4, 2⟩) ∧
      (⟨some [7, 7, 0, 0], 4, 2⟩ : DataManager).addChunk 0 [9, 9] =
        .ok (true, ⟨some [9, 9, 0, 0], 4, 4⟩)) := by
  refine ⟨?_, runChunks_received, rfl, rfl⟩
  intro dm b offset chunk hb hle
  simp only [DataManager.addChunk, hb]
  rw [if_neg (by omega)]

/-- Witness for C10: a 1-byte chunk added to a fresh 3-byte buffer. -/
theorem dataManager_completion_by_count_witness :
    (DataManager.init 3).buffer = some (List.replicate 3 0) ∧
    (0 : Nat) + ([7] : List Nat).length ≤ (List.replicate 3 0).length ∧
    (DataManager.init 3).addChunk 0 [7] =
      .ok (decide ((DataManager.init 3).totalSize ≤
            (DataManager.init 3).receivedSize + ([7] : List Nat).length),
        { buffer := some (DataManager.writeBytes (List.replicate 3 0) 0 [7])
          totalSize := (DataManager.init 3).totalSize
          receivedSize := (DataManager.init 3).receivedSize + ([7] : List Nat).length }) :=
  ⟨rfl, by decide,
    dataManager_completion_by_count.1 (DataManager.init 3) (List.replicate 3 0) 0 [7]
      rfl (by decide)⟩
